import Mathlib

/-!
Verification of the ordering checker in `src/check.rs` of the `remain`
repository.  The checker receives one container (enum variants, struct
fields, impl members, or match/let arms), strips `#[unsorted]` /
`#[remain::unsorted]` markers, derives a `(Category, Path)` sort key per
remaining declaration, and verifies the key sequence with a two-pass
adjacent scan (wildcard-first, then wildcard-last policy), diagnosing the
first violation via binary search over the already-sorted prefix.

The comparison primitives (`cmp`, `Path`, `UnderscoreOrder`) live in the
crate's `compare` module, which is not part of the provided sources; they
are modelled from the specification (spec §3, §4.1).  Everything else is a
shallow embedding of `src/check.rs`, with Rust's in-place mutation of the
declaration list made explicit (functions return the mutated list), Rust
`Result` as `Except`, and panics tracked as a distinct failure outcome.
-/

namespace Remain

/-- Wildcard policy (spec §3 `WildcardPolicy`, source type `UnderscoreOrder`):
where the reserved wildcard segment sorts relative to concrete segments. -/
inductive UnderscoreOrder where
  | First
  | Last
deriving DecidableEq

/-- One attribute of a declaration: `path` is the attribute path rendered to a
string (as `quote!(#path).to_string()` does in `remove_unsorted_attr`), and
`tokens` stands for the rest of the attribute surface syntax. -/
structure Attribute where
  path : String
  tokens : String
deriving DecidableEq

/-- Sort identity of a declaration: an ordered sequence of name segments
(source `Path { segments: Vec<Ident> }`). -/
structure Path where
  segments : List String
deriving DecidableEq

/-- Category tag, `pub(crate) type Category = u8;` in the source.  Only the
constants 0..4 occur, so `Nat` models it without overflow concerns. -/
abbrev Category := Nat

/-- The unit the verifier orders: `(Category, Path)`. -/
abbrev SortKey := Category × Path

/-- The reserved wildcard segment.  A wildcard arm contributes
`Ident::from(pat.underscore_token)`, i.e. the identifier `_`. -/
def wildcard : String := "_"

/-- Three-way comparison of characters by code point. -/
def cmpChar (a b : Char) : Ordering :=
  if a.toNat < b.toNat then .lt else if b.toNat < a.toNat then .gt else .eq

/-- Lexicographic extension of a three-way comparator to lists. -/
def cmpList {α : Type} (c : α → α → Ordering) : List α → List α → Ordering
  | [], [] => .eq
  | [], _ :: _ => .lt
  | _ :: _, [] => .gt
  | a :: as, b :: bs =>
    match c a b with
    | .eq => cmpList c as bs
    | o => o

/-- Three-way comparison of strings: case-sensitive lexicographic order by
character code point. -/
def cmpStr (a b : String) : Ordering :=
  cmpList cmpChar a.data b.data

/-- Modelled from the spec: segment comparison of the crate's `compare`
module (not under `src/`).  Per spec §4.1 the distinguished wildcard segment
is not compared lexically; under `First` it is less than every concrete
segment and under `Last` greater, at whatever position it occurs; concrete
segments use case-sensitive string order. -/
def cmpSegment (mode : UnderscoreOrder) (a b : String) : Ordering :=
  if a = wildcard then
    if b = wildcard then .eq
    else match mode with
      | .First => .lt
      | .Last => .gt
  else if b = wildcard then
    match mode with
      | .First => .gt
      | .Last => .lt
  else cmpStr a b

/-- Modelled from the spec: segment-by-segment comparison of paths
(spec §4.1); a strict prefix is less, mirroring ordinary lexicographic
sequence comparison. -/
def cmpSegments (mode : UnderscoreOrder) : List String → List String → Ordering
  | [], [] => .eq
  | [], _ :: _ => .lt
  | _ :: _, [] => .gt
  | a :: as, b :: bs =>
    match cmpSegment mode a b with
    | .eq => cmpSegments mode as bs
    | o => o

/-- Three-way comparison of categories (`u8` comparison in the source). -/
def cmpNat (a b : Nat) : Ordering :=
  if a < b then .lt else if b < a then .gt else .eq

/-- Modelled from the spec: `cmp(a, b, policy)` of the crate's `compare`
module.  Primary key the category, compared numerically; ties fall through
to the path (spec §4.1). -/
def cmp (a b : SortKey) (mode : UnderscoreOrder) : Ordering :=
  match cmpNat a.1 b.1 with
  | .eq => cmpSegments mode a.2.segments b.2.segments
  | o => o

theorem ordering_swap_eq_gt {o : Ordering} : o.swap = .gt ↔ o = .lt := by
  cases o <;> decide

theorem ordering_swap_eq_lt {o : Ordering} : o.swap = .lt ↔ o = .gt := by
  cases o <;> decide

theorem ordering_swap_eq_eq {o : Ordering} : o.swap = .eq ↔ o = .eq := by
  cases o <;> decide

/-- Laws making a three-way comparator the comparison function of a linear
order: equality reflects value equality, swapping arguments swaps the
outcome, and strict-less is transitive. -/
structure CmpLaws (α : Type) (c : α → α → Ordering) : Prop where
  eq_iff : ∀ a b, c a b = .eq ↔ a = b
  swap_eq : ∀ a b, (c a b).swap = c b a
  lt_trans : ∀ a b d, c a b = .lt → c b d = .lt → c a d = .lt

theorem CmpLaws.gt_iff {α : Type} {c : α → α → Ordering} (L : CmpLaws α c)
    {a b : α} : c a b = .gt ↔ c b a = .lt := by
  rw [← L.swap_eq a b, ordering_swap_eq_lt]

theorem cmpChar_laws : CmpLaws Char cmpChar := by
  constructor
  · intro a b
    unfold cmpChar
    split_ifs with h1 h2
    · simp
      intro h
      subst h
      omega
    · simp
      intro h
      subst h
      omega
    · simp
      have hn : a.toNat = b.toNat := by omega
      exact Char.ext (UInt32.ext hn)
  · intro a b
    unfold cmpChar
    split_ifs <;> first
      | rfl
      | omega
  · intro a b d hab hbd
    unfold cmpChar at hab hbd ⊢
    split_ifs at hab hbd ⊢ <;> first
      | rfl
      | omega

theorem cmpList_eq_iff {α : Type} {c : α → α → Ordering} (L : CmpLaws α c) :
    ∀ {as bs : List α}, cmpList c as bs = .eq ↔ as = bs := by
  intro as
  induction as with
  | nil =>
    intro bs
    cases bs with
    | nil => simp [cmpList]
    | cons b bs => simp [cmpList]
  | cons a as ih =>
    intro bs
    cases bs with
    | nil => simp [cmpList]
    | cons b bs =>
      cases h : c a b
      · have : a ≠ b := fun e => by simp [(L.eq_iff a b).2 e] at h
        simp [cmpList, h, this]
      · have hab : a = b := (L.eq_iff a b).1 h
        subst hab
        simp [cmpList, h, ih]
      · have : a ≠ b := fun e => by simp [(L.eq_iff a b).2 e] at h
        simp [cmpList, h, this]

theorem cmpList_gt_iff {α : Type} {c : α → α → Ordering} (L : CmpLaws α c) :
    ∀ {as bs : List α}, cmpList c as bs = .gt ↔ cmpList c bs as = .lt := by
  intro as
  induction as with
  | nil =>
    intro bs
    cases bs with
    | nil => simp [cmpList]
    | cons b bs => simp [cmpList]
  | cons a as ih =>
    intro bs
    cases bs with
    | nil => simp [cmpList]
    | cons b bs =>
      cases h : c a b
      · have hba : c b a = .gt := (L.gt_iff).2 h
        simp [cmpList, h, hba]
      · have hab : a = b := (L.eq_iff a b).1 h
        have hba : c b a = .eq := (L.eq_iff b a).2 hab.symm
        simp [cmpList, h, hba, ih]
      · have hba : c b a = .lt := (L.gt_iff).1 h
        simp [cmpList, h, hba]

theorem cmpList_swap {α : Type} {c : α → α → Ordering} (L : CmpLaws α c)
    (as bs : List α) : (cmpList c as bs).swap = cmpList c bs as := by
  cases o : cmpList c as bs
  · rw [show cmpList c bs as = .gt from (cmpList_gt_iff L).2 o]; rfl
  · rw [show cmpList c bs as = .eq from
      (cmpList_eq_iff L).2 ((cmpList_eq_iff L).1 o).symm]; rfl
  · rw [show cmpList c bs as = .lt from (cmpList_gt_iff L).1 o]; rfl

theorem cmpList_lt_trans {α : Type} {c : α → α → Ordering} (L : CmpLaws α c) :
    ∀ (as bs cs : List α), cmpList c as bs = .lt →
      cmpList c bs cs = .lt → cmpList c as cs = .lt := by
  intro as
  induction as with
  | nil =>
    intro bs cs h1 h2
    cases bs with
    | nil => simp [cmpList] at h1
    | cons b bs =>
      cases cs with
      | nil => simp [cmpList] at h2
      | cons cc cs => simp [cmpList]
  | cons a as ih =>
    intro bs cs h1 h2
    cases bs with
    | nil => simp [cmpList] at h1
    | cons b bs =>
      cases cs with
      | nil => simp [cmpList] at h2
      | cons cc cs =>
        cases hab : c a b <;> rw [cmpList, hab] at h1
        · cases hbc : c b cc <;> rw [cmpList, hbc] at h2
          · have : c a cc = .lt := L.lt_trans a b cc hab hbc
            simp [cmpList, this]
          · have hbec : b = cc := (L.eq_iff b cc).1 hbc
            subst hbec
            simp [cmpList, hab]
          · exact absurd h2 (by simp)
        · have haeb : a = b := (L.eq_iff a b).1 hab
          subst haeb
          cases hbc : c a cc <;> rw [cmpList, hbc] at h2
          · simp [cmpList, hbc]
          · simp [cmpList, hbc]
            exact ih bs cs h1 h2
          · exact absurd h2 (by simp)
        · exact absurd h1 (by simp)

theorem cmpList_laws {α : Type} {c : α → α → Ordering} (L : CmpLaws α c) :
    CmpLaws (List α) (cmpList c) :=
  ⟨fun _ _ => cmpList_eq_iff L, cmpList_swap L, cmpList_lt_trans L⟩

theorem cmpStr_eq_iff {a b : String} : cmpStr a b = .eq ↔ a = b := by
  unfold cmpStr
  rw [cmpList_eq_iff cmpChar_laws]
  constructor
  · intro h
    cases a
    cases b
    simp_all
  · intro h
    rw [h]

theorem cmpStr_laws : CmpLaws String cmpStr := by
  refine ⟨fun a b => cmpStr_eq_iff, fun a b => ?_, fun a b d hab hbd => ?_⟩
  · exact cmpList_swap cmpChar_laws a.data b.data
  · exact cmpList_lt_trans cmpChar_laws a.data b.data d.data hab hbd

theorem cmpStr_gt_iff {a b : String} : cmpStr a b = .gt ↔ cmpStr b a = .lt :=
  cmpStr_laws.gt_iff

theorem cmpNat_lt_iff {a b : Nat} : cmpNat a b = .lt ↔ a < b := by
  unfold cmpNat
  split_ifs with h1 h2
  · simp [h1]
  · simp [h1]
  · simp [h1]

theorem cmpNat_gt_iff {a b : Nat} : cmpNat a b = .gt ↔ b < a := by
  unfold cmpNat
  split_ifs with h1 h2
  · simp [Nat.lt_asymm h1]
  · simp [h2]
  · simp [h2]

theorem cmpNat_eq_iff {a b : Nat} : cmpNat a b = .eq ↔ a = b := by
  unfold cmpNat
  split_ifs with h1 h2
  · simp; omega
  · simp; omega
  · simp; omega

theorem cmpNat_laws : CmpLaws Nat cmpNat := by
  refine ⟨fun a b => cmpNat_eq_iff, fun a b => ?_, fun a b d hab hbd => ?_⟩
  · rcases lt_trichotomy a b with h | h | h
    · rw [cmpNat_lt_iff.2 h, cmpNat_gt_iff.2 h]; rfl
    · subst h; rw [cmpNat_eq_iff.2 rfl]; rfl
    · rw [cmpNat_gt_iff.2 h, cmpNat_lt_iff.2 h]; rfl
  · exact cmpNat_lt_iff.2 (Nat.lt_trans (cmpNat_lt_iff.1 hab) (cmpNat_lt_iff.1 hbd))

theorem cmpSegment_eq_iff {mode : UnderscoreOrder} {a b : String} :
    cmpSegment mode a b = .eq ↔ a = b := by
  by_cases ha : a = wildcard <;> by_cases hb : b = wildcard
  · simp [cmpSegment, ha, hb]
  · cases mode <;> simp [cmpSegment, ha, hb, Ne.symm hb]
  · cases mode <;> simp [cmpSegment, ha, hb]
  · simp [cmpSegment, ha, hb, cmpStr_eq_iff]

theorem cmpSegment_lt_iff {mode : UnderscoreOrder} {a b : String} :
    cmpSegment mode a b = .lt ↔
      ((mode = .First ∧ a = wildcard ∧ b ≠ wildcard) ∨
       (mode = .Last ∧ a ≠ wildcard ∧ b = wildcard) ∨
       (a ≠ wildcard ∧ b ≠ wildcard ∧ cmpStr a b = .lt)) := by
  cases mode <;> by_cases ha : a = wildcard <;> by_cases hb : b = wildcard <;>
    simp [cmpSegment, ha, hb]

theorem cmpSegment_gt_iff {mode : UnderscoreOrder} {a b : String} :
    cmpSegment mode a b = .gt ↔ cmpSegment mode b a = .lt := by
  cases mode <;> by_cases ha : a = wildcard <;> by_cases hb : b = wildcard <;>
    simp [cmpSegment, ha, hb, cmpStr_gt_iff]

theorem cmpSegment_swap (mode : UnderscoreOrder) (a b : String) :
    (cmpSegment mode a b).swap = cmpSegment mode b a := by
  cases o : cmpSegment mode a b
  · rw [show cmpSegment mode b a = .gt from cmpSegment_gt_iff.2 o]; rfl
  · rw [show cmpSegment mode b a = .eq from
      cmpSegment_eq_iff.2 (cmpSegment_eq_iff.1 o).symm]; rfl
  · rw [show cmpSegment mode b a = .lt from cmpSegment_gt_iff.1 o]; rfl

theorem cmpSegment_lt_trans (mode : UnderscoreOrder) (a b d : String)
    (hab : cmpSegment mode a b = .lt) (hbd : cmpSegment mode b d = .lt) :
    cmpSegment mode a d = .lt := by
  rw [cmpSegment_lt_iff] at hab hbd ⊢
  rcases hab with ⟨hm, h1, h2⟩ | ⟨hm, h1, h2⟩ | ⟨h1, h2, h3⟩ <;>
    rcases hbd with ⟨hm', h1', h2'⟩ | ⟨hm', h1', h2'⟩ | ⟨h1', h2', h3'⟩ <;>
      subst_vars <;> simp_all
  exact cmpStr_laws.lt_trans a b d h3 h3'

theorem cmpSegment_laws (mode : UnderscoreOrder) :
    CmpLaws String (cmpSegment mode) :=
  ⟨fun _ _ => cmpSegment_eq_iff, cmpSegment_swap mode, cmpSegment_lt_trans mode⟩

theorem cmpSegments_eq_iff {mode : UnderscoreOrder} :
    ∀ {as bs : List String}, cmpSegments mode as bs = .eq ↔ as = bs := by
  intro as
  induction as with
  | nil =>
    intro bs
    cases bs with
    | nil => simp [cmpSegments]
    | cons b bs => simp [cmpSegments]
  | cons a as ih =>
    intro bs
    cases bs with
    | nil => simp [cmpSegments]
    | cons b bs =>
      cases h : cmpSegment mode a b
      · have : a ≠ b := fun e => by simp [cmpSegment_eq_iff.2 e] at h
        simp [cmpSegments, h, this]
      · have hab : a = b := cmpSegment_eq_iff.1 h
        subst hab
        simp [cmpSegments, h, ih]
      · have : a ≠ b := fun e => by simp [cmpSegment_eq_iff.2 e] at h
        simp [cmpSegments, h, this]

theorem cmpSegments_gt_iff {mode : UnderscoreOrder} :
    ∀ {as bs : List String},
      cmpSegments mode as bs = .gt ↔ cmpSegments mode bs as = .lt := by
  intro as
  induction as with
  | nil =>
    intro bs
    cases bs with
    | nil => simp [cmpSegments]
    | cons b bs => simp [cmpSegments]
  | cons a as ih =>
    intro bs
    cases bs with
    | nil => simp [cmpSegments]
    | cons b bs =>
      cases h : cmpSegment mode a b
      · have hba : cmpSegment mode b a = .gt := cmpSegment_gt_iff.2 h
        simp [cmpSegments, h, hba]
      · have hab : a = b := cmpSegment_eq_iff.1 h
        have hba : cmpSegment mode b a = .eq := cmpSegment_eq_iff.2 hab.symm
        simp [cmpSegments, h, hba, ih]
      · have hba : cmpSegment mode b a = .lt := cmpSegment_gt_iff.1 h
        simp [cmpSegments, h, hba]

theorem cmpSegments_swap (mode : UnderscoreOrder) (as bs : List String) :
    (cmpSegments mode as bs).swap = cmpSegments mode bs as := by
  cases o : cmpSegments mode as bs
  · rw [show cmpSegments mode bs as = .gt from cmpSegments_gt_iff.2 o]; rfl
  · rw [show cmpSegments mode bs as = .eq from
      cmpSegments_eq_iff.2 (cmpSegments_eq_iff.1 o).symm]; rfl
  · rw [show cmpSegments mode bs as = .lt from cmpSegments_gt_iff.1 o]; rfl

theorem cmpSegments_lt_trans (mode : UnderscoreOrder) :
    ∀ (as bs cs : List String), cmpSegments mode as bs = .lt →
      cmpSegments mode bs cs = .lt → cmpSegments mode as cs = .lt := by
  intro as
  induction as with
  | nil =>
    intro bs cs h1 h2
    cases bs with
    | nil => simp [cmpSegments] at h1
    | cons b bs =>
      cases cs with
      | nil => simp [cmpSegments] at h2
      | cons c cs => simp [cmpSegments]
  | cons a as ih =>
    intro bs cs h1 h2
    cases bs with
    | nil => simp [cmpSegments] at h1
    | cons b bs =>
      cases cs with
      | nil => simp [cmpSegments] at h2
      | cons c cs =>
        cases hab : cmpSegment mode a b <;> rw [cmpSegments, hab] at h1
        · cases hbc : cmpSegment mode b c <;> rw [cmpSegments, hbc] at h2
          · have : cmpSegment mode a c = .lt := cmpSegment_lt_trans mode a b c hab hbc
            simp [cmpSegments, this]
          · have hbec : b = c := cmpSegment_eq_iff.1 hbc
            subst hbec
            simp [cmpSegments, hab]
          · exact absurd h2 (by simp)
        · have haeb : a = b := cmpSegment_eq_iff.1 hab
          subst haeb
          cases hbc : cmpSegment mode a c <;> rw [cmpSegments, hbc] at h2
          · simp [cmpSegments, hbc]
          · simp [cmpSegments, hbc]
            exact ih bs cs h1 h2
          · exact absurd h2 (by simp)
        · exact absurd h1 (by simp)

theorem cmpSegments_laws (mode : UnderscoreOrder) :
    CmpLaws (List String) (cmpSegments mode) :=
  ⟨fun _ _ => cmpSegments_eq_iff, cmpSegments_swap mode, cmpSegments_lt_trans mode⟩

theorem cmp_eq_iff {mode : UnderscoreOrder} {a b : SortKey} :
    cmp a b mode = .eq ↔ a = b := by
  obtain ⟨c1, ⟨s1⟩⟩ := a
  obtain ⟨c2, ⟨s2⟩⟩ := b
  cases hn : cmpNat c1 c2
  · have : c1 ≠ c2 := fun e => by simp [cmpNat_eq_iff.2 e] at hn
    simp [cmp, hn, this]
  · have he : c1 = c2 := cmpNat_eq_iff.1 hn
    subst he
    simp [cmp, hn, cmpSegments_eq_iff]
  · have : c1 ≠ c2 := fun e => by simp [cmpNat_eq_iff.2 e] at hn
    simp [cmp, hn, this]

theorem cmp_gt_iff {mode : UnderscoreOrder} {a b : SortKey} :
    cmp a b mode = .gt ↔ cmp b a mode = .lt := by
  obtain ⟨c1, ⟨s1⟩⟩ := a
  obtain ⟨c2, ⟨s2⟩⟩ := b
  cases hn : cmpNat c1 c2
  · have h' : cmpNat c2 c1 = .gt := cmpNat_gt_iff.2 (cmpNat_lt_iff.1 hn)
    simp [cmp, hn, h']
  · have he : c1 = c2 := cmpNat_eq_iff.1 hn
    have h' : cmpNat c2 c1 = .eq := cmpNat_eq_iff.2 he.symm
    simp [cmp, hn, h', cmpSegments_gt_iff]
  · have h' : cmpNat c2 c1 = .lt := cmpNat_lt_iff.2 (cmpNat_gt_iff.1 hn)
    simp [cmp, hn, h']

theorem cmp_swap (mode : UnderscoreOrder) (a b : SortKey) :
    (cmp a b mode).swap = cmp b a mode := by
  cases o : cmp a b mode
  · rw [show cmp b a mode = .gt from cmp_gt_iff.2 o]; rfl
  · rw [show cmp b a mode = .eq from cmp_eq_iff.2 (cmp_eq_iff.1 o).symm]; rfl
  · rw [show cmp b a mode = .lt from cmp_gt_iff.1 o]; rfl

theorem cmp_lt_trans {mode : UnderscoreOrder} {a b d : SortKey}
    (hab : cmp a b mode = .lt) (hbd : cmp b d mode = .lt) :
    cmp a d mode = .lt := by
  unfold cmp at hab hbd ⊢
  cases h12 : cmpNat a.1 b.1 <;> simp only [h12] at hab
  · cases h23 : cmpNat b.1 d.1 <;> simp only [h23] at hbd
    · simp only [cmpNat_laws.lt_trans a.1 b.1 d.1 h12 h23]
    · have he : b.1 = d.1 := cmpNat_eq_iff.1 h23
      simp only [← he, h12]
    · exact absurd hbd (by simp)
  · have he : a.1 = b.1 := cmpNat_eq_iff.1 h12
    cases h23 : cmpNat b.1 d.1 <;> simp only [h23] at hbd
    · have h13 : cmpNat a.1 d.1 = .lt := by rw [he]; exact h23
      simp only [h13]
    · have h13 : cmpNat a.1 d.1 = .eq := by rw [he]; exact h23
      simp only [h13]
      exact cmpSegments_lt_trans mode _ _ _ hab hbd
    · exact absurd hbd (by simp)
  · exact absurd hab (by simp)

theorem cmp_laws (mode : UnderscoreOrder) :
    CmpLaws SortKey (fun a b => cmp a b mode) :=
  ⟨fun _ _ => cmp_eq_iff, cmp_swap mode, fun _ _ _ => cmp_lt_trans⟩

theorem cmp_refl (mode : UnderscoreOrder) (a : SortKey) : cmp a a mode = .eq :=
  cmp_eq_iff.2 rfl

theorem cmp_ne_gt_iff {mode : UnderscoreOrder} {a b : SortKey} :
    cmp a b mode ≠ .gt ↔ cmp b a mode ≠ .lt := by
  constructor
  · intro h h'
    exact h (cmp_gt_iff.2 h')
  · intro h h'
    exact h (cmp_gt_iff.1 h')

theorem cmp_le_trans {mode : UnderscoreOrder} {a b d : SortKey}
    (hab : cmp a b mode ≠ .gt) (hbd : cmp b d mode ≠ .gt) :
    cmp a d mode ≠ .gt := by
  cases h1 : cmp a b mode
  · cases h2 : cmp b d mode
    · simp [cmp_lt_trans h1 h2]
    · rw [← cmp_eq_iff.1 h2, h1]; simp
    · exact absurd h2 hbd
  · rw [cmp_eq_iff.1 h1]; exact hbd
  · exact absurd h1 hab

theorem cmp_lt_of_lt_of_le {mode : UnderscoreOrder} {a b d : SortKey}
    (hab : cmp a b mode = .lt) (hbd : cmp b d mode ≠ .gt) :
    cmp a d mode = .lt := by
  cases h2 : cmp b d mode
  · exact cmp_lt_trans hab h2
  · rw [← cmp_eq_iff.1 h2]; exact hab
  · exact absurd h2 hbd

theorem cmp_lt_of_le_of_lt {mode : UnderscoreOrder} {a b d : SortKey}
    (hab : cmp a b mode ≠ .gt) (hbd : cmp b d mode = .lt) :
    cmp a d mode = .lt := by
  cases h1 : cmp a b mode
  · exact cmp_lt_trans h1 hbd
  · rw [cmp_eq_iff.1 h1]; exact hbd
  · exact absurd h1 hab

/-- Failure outcome of key derivation.  The source distinguishes returned
`syn::Error` values (`Err(Error::new_spanned(..))`) from panics (`expect`,
explicit `panic`), which unwind instead of returning. -/
inductive Failure where
  | unsupported (msg : String)
  | panicked (msg : String)
deriving DecidableEq

/-- Overall outcome of the `sorted` check on one container.  The source
returns `Ok(())` on success and `Err(format::error(&lesser.1, &greater.1))`
on an ordering violation, carrying the two paths; key derivation can also
surface an `unsupported` error or abort with a panic. -/
inductive CheckResult where
  | ok
  | orderViolation (lesser greater : Path)
  | unsupported (msg : String)
  | panicked (msg : String)
deriving DecidableEq

/-- Default key used only to give `List.getD` a value; every access proved
about is in range. -/
def dKP : SortKey := (0, ⟨[]⟩)

/-- Source `find_misordered`, scanning from index `i` upward:
`for i in 1..paths.len() { if cmp(&paths[i], &paths[i-1], mode) == Less {
return Some(i) } }`.  The extra fuel argument only drives structural
recursion; `paths.length` steps are provably enough. -/
def fmFrom (paths : List SortKey) (mode : UnderscoreOrder) :
    Nat → Nat → Option Nat
  | 0, _ => none
  | fuel + 1, i =>
    if i < paths.length then
      if cmp (paths.getD i dKP) (paths.getD (i - 1) dKP) mode = .lt then some i
      else fmFrom paths mode fuel (i + 1)
    else none

/-- Source `find_misordered(paths, mode)`: first index `i ≥ 1` whose key
compares `Less` than its predecessor under `mode`. -/
def find_misordered (paths : List SortKey) (mode : UnderscoreOrder) :
    Option Nat :=
  fmFrom paths mode paths.length 1

/-- Source `remove_unsorted_attr`: remove the first attribute whose rendered
path is `unsorted` or `remain :: unsorted`, returning whether one was found
together with the updated attribute list (the Rust version mutates the
vector in place). -/
def remove_unsorted_attr : List Attribute → Bool × List Attribute
  | [] => (false, [])
  | a :: rest =>
    if a.path = "unsorted" ∨ a.path = "remain :: unsorted" then (true, rest)
    else
      let r := remove_unsorted_attr rest
      (r.1, a :: r.2)

/-- The `Sortable` trait of the source, as a record of operations: access to
the attribute list (`Except` because `ImplItem`'s catch-all arm panics with
"unsupported attributes"), writing the attribute list back (explicit
counterpart of the `&mut Vec<Attribute>` the Rust trait hands out),
`to_path`, and `category` (default 0).  `set_attrs_id` records that writing
back an unchanged attribute list leaves the declaration unchanged, which is
automatic for in-place mutation. -/
structure Sortable (α : Type) where
  attrs : α → Except String (List Attribute)
  setAttrs : α → List Attribute → α
  to_path : α → Except Failure Path
  category : α → Category
  set_attrs_id : ∀ x as, attrs x = .ok as → setAttrs x as = x

/-- Source `collect_paths`: for each declaration, first strip an exclusion
attribute (skipping the declaration when one was present), otherwise derive
its `(category, path)` key; the first failure aborts.  Returns the mutated
declaration list together with the collected keys. -/
def collect_paths (S : Sortable α) : List α → Except Failure (List α × List SortKey)
  | [] => .ok ([], [])
  | x :: xs =>
    match S.attrs x with
    | .error msg => .error (.panicked msg)
    | .ok as =>
      let r := remove_unsorted_attr as
      let x' := S.setAttrs x r.2
      if r.1 then
        match collect_paths S xs with
        | .error e => .error e
        | .ok (rest, ks) => .ok (x' :: rest, ks)
      else
        match S.to_path x' with
        | .error e => .error e
        | .ok p =>
          match collect_paths S xs with
          | .error e => .error e
          | .ok (rest, ks) => .ok (x' :: rest, (S.category x', p) :: ks)

/-- Result of Rust's `slice::binary_search_by`: `Ok(i)` on an exact match,
`Err(i)` with the insertion position otherwise. -/
inductive SearchResult where
  | found (i : Nat)
  | notFound (i : Nat)
deriving DecidableEq

/-- Loop of Rust's (current, branchless) `slice::binary_search_by`:
`while size > 1 { let half = size / 2; let mid = base + half;
base = if f(&self[mid]) == Greater { base } else { mid }; size -= half; }`.
The fuel argument only drives structural recursion; `size` initial steps are
provably enough since `size` strictly decreases. -/
def bsLoop (xs : List SortKey) (f : SortKey → Ordering) :
    Nat → Nat → Nat → Nat
  | 0, base, _ => base
  | fuel + 1, base, size =>
    if 1 < size then
      bsLoop xs f fuel
        (if f (xs.getD (base + size / 2) dKP) = .gt then base
         else base + size / 2)
        (size - size / 2)
    else base

/-- Rust's `slice::binary_search_by` on a slice of sort keys: the loop above
followed by the final probe, `Ok(base)` when it compares `Equal`, otherwise
`Err(base + (cmp == Less) as usize)`; the empty slice yields `Err(0)`. -/
def binary_search_by (xs : List SortKey) (f : SortKey → Ordering) :
    SearchResult :=
  if xs.length = 0 then .notFound 0
  else
    match f (xs.getD (bsLoop xs f xs.length 0 xs.length) dKP) with
    | .eq => .found (bsLoop xs f xs.length 0 xs.length)
    | .lt => .notFound (bsLoop xs f xs.length 0 xs.length + 1)
    | .gt => .notFound (bsLoop xs f xs.length 0 xs.length)

/-- The `match` in the source `sorted` that turns the binary-search result
into the reference position: `Err(correct_pos) => correct_pos,
Ok(equal_to) => equal_to + 1`. -/
def search_correct_pos (xs : List SortKey) (f : SortKey → Ordering) : Nat :=
  match binary_search_by xs f with
  | .notFound correct_pos => correct_pos
  | .found equal_to => equal_to + 1

/-- Verification part of the source `sorted`, operating on the collected key
sequence: pass 1 under `First`; if it finds nothing the check succeeds; pass
2 under `Last`; if it finds nothing the check succeeds; otherwise binary
search `paths[..wrong-1]` for the violator and report the pair. -/
def checkKeys (paths : List SortKey) : CheckResult :=
  match find_misordered paths .First with
  | none => .ok
  | some _ =>
    match find_misordered paths .Last with
    | none => .ok
    | some wrong =>
      let lesser := paths.getD wrong dKP
      let correct_pos :=
        search_correct_pos (paths.take (wrong - 1))
          (fun probe => cmp probe lesser .Last)
      .orderViolation lesser.2 (paths.getD correct_pos dKP).2

/-- Source `sorted(input)`: collect the keys (mutating the container by
stripping exclusion attributes), then verify.  The mutated container is
returned alongside the result; on a derivation failure the source aborts
with the container partially mutated, which no claim observes, so the
original list is returned in that case. -/
def sorted (S : Sortable α) (items : List α) : CheckResult × List α :=
  match collect_paths S items with
  | .error (.unsupported m) => (.unsupported m, items)
  | .error (.panicked m) => (.panicked m, items)
  | .ok (items', ks) => (checkKeys ks, items')

/-- Enum variant: name plus attributes (`syn::Variant`). -/
structure Variant where
  ident : String
  attrs : List Attribute
deriving DecidableEq

/-- Struct field: optional name (unnamed for tuple structs) plus attributes
(`syn::Field`). -/
structure Field where
  ident : Option String
  attrs : List Attribute
deriving DecidableEq

/-- Impl/trait member (`syn::ImplItem`).  `assocType` models
`ImplItem::Type`, `mcr` models `ImplItem::Macro` (with the idents of the
invocation path), and `other` models the remaining variants
(e.g. `Verbatim`), which expose no attribute list. -/
inductive ImplItem where
  | const (ident : String) (attrs : List Attribute)
  | assocType (ident : String) (attrs : List Attribute)
  | method (ident : String) (attrs : List Attribute)
  | mcr (path : List String) (attrs : List Attribute)
  | other
deriving DecidableEq

/-- Match/let arm pattern (`syn::Pat`), restricted to what the checker
inspects: an ident binding with its by-ref/mut modifiers and whether a
sub-pattern (`ident @ pat`) is attached, path-like patterns with their
segment idents, the wildcard, an or-pattern with its alternatives, and
`other` for every remaining pattern kind. -/
inductive Pat where
  | ident (byRef : Bool) (mutability : Bool) (name : String) (subpat : Bool)
  | path (segments : List String)
  | struct (segments : List String)
  | tupleStruct (segments : List String)
  | wild
  | or (cases : List Pat)
  | other

/-- Match/let arm: its pattern and attributes (`syn::Arm`). -/
structure Arm where
  pat : Pat
  attrs : List Attribute

/-- Source `is_just_ident`: no by-ref, no mutability, no sub-pattern. -/
def is_just_ident (byRef mutability subpat : Bool) : Bool :=
  !byRef && !mutability && !subpat

/-- First step of `<Arm as Sortable>::to_path`: `let pat = match &self.pat {
Pat::Or(pat) => pat.cases.iter().next().expect("at least one pat"), _ =>
&self.pat }`. -/
def patFirst : Pat → Except Failure Pat
  | .or cases =>
    match cases with
    | [] => .error (.panicked "at least one pat")
    | c :: _ => .ok c
  | p => .ok p

/-- Second step of `<Arm as Sortable>::to_path`: the segment list derived
from the (or-unwrapped) pattern; unsupported kinds are rejected with the
source's error message. -/
def patSegments : Pat → Except Failure (List String)
  | .ident byRef mutability name subpat =>
    if is_just_ident byRef mutability subpat then .ok [name]
    else .error (.unsupported "unsupported by #[remain::sorted]")
  | .path segments => .ok segments
  | .struct segments => .ok segments
  | .tupleStruct segments => .ok segments
  | .wild => .ok [wildcard]
  | _ => .error (.unsupported "unsupported by #[remain::sorted]")

/-- `<Arm as Sortable>::to_path`, composing the two steps. -/
def armToPath (a : Arm) : Except Failure Path :=
  match patFirst a.pat with
  | .error e => .error e
  | .ok p =>
    match patSegments p with
    | .error e => .error e
    | .ok segments => .ok ⟨segments⟩

/-- `impl Sortable for Variant`. -/
def sortableVariant : Sortable Variant where
  attrs v := .ok v.attrs
  setAttrs v as := { v with attrs := as }
  to_path v := .ok ⟨[v.ident]⟩
  category _ := 0
  set_attrs_id := by
    intro x as h
    cases x
    cases h
    rfl

/-- `impl Sortable for Field`: `self.ident.clone().expect("must be named
field")` panics on an unnamed field. -/
def sortableField : Sortable Field where
  attrs f := .ok f.attrs
  setAttrs f as := { f with attrs := as }
  to_path f :=
    match f.ident with
    | some name => .ok ⟨[name]⟩
    | none => .error (.panicked "must be named field")
  category _ := 0
  set_attrs_id := by
    intro x as h
    cases x
    cases h
    rfl

/-- `impl Sortable for ImplItem`: categories 0/1/2/3 for
const/type/method/macro and 4 otherwise; `attrs()` panics with
"unsupported attributes" on the catch-all arm; `to_path` rejects the
catch-all arm with the source's error message. -/
def sortableImplItem : Sortable ImplItem where
  attrs it :=
    match it with
    | .const _ as => .ok as
    | .assocType _ as => .ok as
    | .method _ as => .ok as
    | .mcr _ as => .ok as
    | .other => .error "unsupported attributes"
  setAttrs it l :=
    match it with
    | .const i _ => .const i l
    | .assocType i _ => .assocType i l
    | .method i _ => .method i l
    | .mcr p _ => .mcr p l
    | .other => .other
  to_path it :=
    match it with
    | .const i _ => .ok ⟨[i]⟩
    | .assocType i _ => .ok ⟨[i]⟩
    | .mcr p _ => .ok ⟨p⟩
    | .method i _ => .ok ⟨[i]⟩
    | .other => .error (.unsupported "unsupported by #[remain::sorted]")
  category it :=
    match it with
    | .const _ _ => 0
    | .assocType _ _ => 1
    | .method _ _ => 2
    | .mcr _ _ => 3
    | .other => 4
  set_attrs_id := by
    intro x as h
    cases x <;> cases h <;> rfl

/-- `impl Sortable for Arm`. -/
def sortableArm : Sortable Arm where
  attrs a := .ok a.attrs
  setAttrs a as := { a with attrs := as }
  to_path := armToPath
  category _ := 0
  set_attrs_id := by
    intro x as h
    cases x
    cases h
    rfl

/-- The `Input` enum of the crate's `parse` module, as dispatched by
`sorted`: enum variants, impl members, struct fields, or match/let arms. -/
inductive Input where
  | enumInput (variants : List Variant)
  | implInput (items : List ImplItem)
  | structInput (fields : List Field)
  | matchInput (arms : List Arm)
  | letInput (arms : List Arm)

/-- Top-level `sorted(input: &mut Input)`, dispatching on the container
kind. -/
def sortedInput : Input → CheckResult × Input
  | .enumInput vs =>
    let r := sorted sortableVariant vs
    (r.1, .enumInput r.2)
  | .implInput its =>
    let r := sorted sortableImplItem its
    (r.1, .implInput r.2)
  | .structInput fs =>
    let r := sorted sortableField fs
    (r.1, .structInput r.2)
  | .matchInput as =>
    let r := sorted sortableArm as
    (r.1, .matchInput r.2)
  | .letInput as =>
    let r := sorted sortableArm as
    (r.1, .letInput r.2)

theorem fmFrom_none_iff (ks : List SortKey) (mode : UnderscoreOrder) :
    ∀ fuel i0, ks.length - i0 ≤ fuel →
      (fmFrom ks mode fuel i0 = none ↔
        ∀ j, i0 ≤ j → j < ks.length →
          cmp (ks.getD j dKP) (ks.getD (j - 1) dKP) mode ≠ .lt) := by
  intro fuel
  induction fuel with
  | zero =>
    intro i0 h
    constructor
    · intro _ j hj1 hj2
      omega
    · intro _
      rfl
  | succ fuel ih =>
    intro i0 h
    unfold fmFrom
    by_cases hlt : i0 < ks.length
    · rw [if_pos hlt]
      by_cases hc : cmp (ks.getD i0 dKP) (ks.getD (i0 - 1) dKP) mode = .lt
      · rw [if_pos hc]
        constructor
        · intro h'
          exact absurd h' (by simp)
        · intro H
          exact ((H i0 le_rfl hlt) hc).elim
      · rw [if_neg hc]
        rw [ih (i0 + 1) (by omega)]
        constructor
        · intro H j hj1 hj2
          rcases Nat.eq_or_lt_of_le hj1 with rfl | h'
          · exact hc
          · exact H j h' hj2
        · intro H j hj1 hj2
          exact H j (by omega) hj2
    · rw [if_neg hlt]
      constructor
      · intro _ j hj1 hj2
        omega
      · intro _
        rfl

theorem fmFrom_some (ks : List SortKey) (mode : UnderscoreOrder) :
    ∀ fuel i0 i, fmFrom ks mode fuel i0 = some i →
      i0 ≤ i ∧ i < ks.length ∧
      cmp (ks.getD i dKP) (ks.getD (i - 1) dKP) mode = .lt ∧
      ∀ j, i0 ≤ j → j < i →
        cmp (ks.getD j dKP) (ks.getD (j - 1) dKP) mode ≠ .lt := by
  intro fuel
  induction fuel with
  | zero =>
    intro i0 i hs
    exact Option.noConfusion hs
  | succ fuel ih =>
    intro i0 i hs
    unfold fmFrom at hs
    by_cases hlt : i0 < ks.length
    · rw [if_pos hlt] at hs
      by_cases hc : cmp (ks.getD i0 dKP) (ks.getD (i0 - 1) dKP) mode = .lt
      · rw [if_pos hc] at hs
        have : i0 = i := by injection hs
        subst this
        refine ⟨le_rfl, hlt, hc, ?_⟩
        intro j hj1 hj2
        omega
      · rw [if_neg hc] at hs
        obtain ⟨h1, h2, h3, h4⟩ := ih (i0 + 1) i hs
        refine ⟨by omega, h2, h3, ?_⟩
        intro j hj1 hj2
        rcases Nat.eq_or_lt_of_le hj1 with rfl | h'
        · exact hc
        · exact h4 j h' hj2
    · rw [if_neg hlt] at hs
      exact Option.noConfusion hs

theorem find_misordered_none_iff {ks : List SortKey} {mode : UnderscoreOrder} :
    find_misordered ks mode = none ↔
      ∀ j, 1 ≤ j → j < ks.length →
        cmp (ks.getD j dKP) (ks.getD (j - 1) dKP) mode ≠ .lt :=
  fmFrom_none_iff ks mode ks.length 1 (by omega)

theorem find_misordered_some {ks : List SortKey} {mode : UnderscoreOrder}
    {i : Nat} (h : find_misordered ks mode = some i) :
    1 ≤ i ∧ i < ks.length ∧
    cmp (ks.getD i dKP) (ks.getD (i - 1) dKP) mode = .lt ∧
    ∀ j, 1 ≤ j → j < i →
      cmp (ks.getD j dKP) (ks.getD (j - 1) dKP) mode ≠ .lt :=
  fmFrom_some ks mode ks.length 1 i h

theorem pairwise_le_of_adjacent (ks : List SortKey) (mode : UnderscoreOrder)
    (B : Nat) (_hB : B ≤ ks.length)
    (H : ∀ j, 1 ≤ j → j < B →
      cmp (ks.getD j dKP) (ks.getD (j - 1) dKP) mode ≠ .lt) :
    ∀ a b, a ≤ b → b < B →
      cmp (ks.getD a dKP) (ks.getD b dKP) mode ≠ .gt := by
  intro a b
  induction b with
  | zero =>
    intro hab _
    have : a = 0 := by omega
    subst this
    rw [cmp_refl]
    simp
  | succ b ihb =>
    intro hab hbB
    rcases Nat.eq_or_lt_of_le hab with rfl | h'
    · rw [cmp_refl]
      simp
    · have h1 := ihb (by omega) (by omega)
      have h2 := H (b + 1) (by omega) hbB
      have h2' : cmp (ks.getD b dKP) (ks.getD (b + 1) dKP) mode ≠ .gt :=
        cmp_ne_gt_iff.2 h2
      exact cmp_le_trans h1 h2'

theorem getD_take {l : List SortKey} {n j : Nat} (h : j < n) :
    (l.take n).getD j dKP = l.getD j dKP := by
  induction l generalizing n j with
  | nil => simp
  | cons x xs ih =>
    cases n with
    | zero => omega
    | succ n =>
      cases j with
      | zero => simp
      | succ j =>
        simp only [List.take_succ_cons, List.getD_cons_succ]
        exact ih (by omega)

theorem exists_partition (xs : List SortKey) (target : SortKey)
    (mode : UnderscoreOrder)
    (Hsorted : ∀ a b, a ≤ b → b < xs.length →
      cmp (xs.getD a dKP) (xs.getD b dKP) mode ≠ .gt) :
    ∃ k, k ≤ xs.length ∧
      (∀ j, j < k → cmp (xs.getD j dKP) target mode ≠ .gt) ∧
      (∀ j, k ≤ j → j < xs.length → cmp (xs.getD j dKP) target mode = .gt) := by
  by_cases hex : ∃ j, j < xs.length ∧ cmp (xs.getD j dKP) target mode = .gt
  · refine ⟨Nat.find hex, ?_, ?_, ?_⟩
    · have := (Nat.find_spec hex).1
      omega
    · intro j hj hgt
      exact Nat.find_min hex hj ⟨by have := (Nat.find_spec hex).1; omega, hgt⟩
    · intro j hkj hjlen
      have hk := Nat.find_spec hex
      have hle := Hsorted (Nat.find hex) j hkj hjlen
      have h1 : cmp target (xs.getD (Nat.find hex) dKP) mode = .lt :=
        cmp_gt_iff.1 hk.2
      have h2 : cmp target (xs.getD j dKP) mode = .lt :=
        cmp_lt_of_lt_of_le h1 hle
      exact cmp_gt_iff.2 h2
  · refine ⟨xs.length, le_rfl, ?_, ?_⟩
    · intro j hj hgt
      exact hex ⟨j, hj, hgt⟩
    · intro j h1 h2
      omega

theorem bsLoop_eq (xs : List SortKey) (f : SortKey → Ordering) (k : Nat)
    (Hk1 : ∀ j, j < k → f (xs.getD j dKP) ≠ .gt)
    (Hk2 : ∀ j, k ≤ j → j < xs.length → f (xs.getD j dKP) = .gt) :
    ∀ fuel base size, size ≤ fuel → 1 ≤ size → base + size ≤ xs.length →
      base ≤ k - 1 → k - 1 < base + size →
      bsLoop xs f fuel base size = k - 1 := by
  intro fuel
  induction fuel with
  | zero =>
    intro base size hfuel h1 h2 h3 h4
    exfalso
    omega
  | succ fuel ih =>
    intro base size hfuel h1 h2 h3 h4
    unfold bsLoop
    by_cases hs : 1 < size
    · rw [if_pos hs]
      by_cases hg : f (xs.getD (base + size / 2) dKP) = .gt
      · rw [if_pos hg]
        have hkmid : k ≤ base + size / 2 := by
          by_contra hcon
          push_neg at hcon
          exact (Hk1 (base + size / 2) hcon) hg
        exact ih base (size - size / 2) (by omega) (by omega) (by omega)
          (by omega) (by omega)
      · rw [if_neg hg]
        have hmidk : base + size / 2 < k := by
          by_contra hcon
          push_neg at hcon
          exact hg (Hk2 (base + size / 2) hcon (by omega))
        exact ih (base + size / 2) (size - size / 2) (by omega) (by omega)
          (by omega) (by omega) (by omega)
    · rw [if_neg hs]
      omega

theorem search_correct_pos_eq (xs : List SortKey) (target : SortKey)
    (mode : UnderscoreOrder) (k : Nat)
    (Hk1 : ∀ j, j < k → cmp (xs.getD j dKP) target mode ≠ .gt)
    (Hk2 : ∀ j, k ≤ j → j < xs.length → cmp (xs.getD j dKP) target mode = .gt)
    (hk : k ≤ xs.length) :
    search_correct_pos xs (fun probe => cmp probe target mode) = k := by
  unfold search_correct_pos binary_search_by
  by_cases h0 : xs.length = 0
  · simp only [h0, if_true]
    omega
  · simp only [h0, if_false]
    have hbase : bsLoop xs (fun probe => cmp probe target mode) xs.length 0
        xs.length = k - 1 :=
      bsLoop_eq xs _ k Hk1 Hk2 xs.length 0 xs.length le_rfl (by omega)
        (by omega) (by omega) (by omega)
    rw [hbase]
    by_cases hk0 : k = 0
    · subst hk0
      simp only [Nat.zero_sub]
      have hgt := Hk2 0 le_rfl (by omega)
      simp only [hgt]
    · have hne := Hk1 (k - 1) (by omega)
      cases hc : cmp (xs.getD (k - 1) dKP) target mode
      · simp only [hc]
        omega
      · simp only [hc]
        omega
      · exact absurd hc hne

theorem binary_search_eq_found (xs : List SortKey) (target : SortKey)
    (mode : UnderscoreOrder) (k : Nat)
    (Hsorted : ∀ a b, a ≤ b → b < xs.length →
      cmp (xs.getD a dKP) (xs.getD b dKP) mode ≠ .gt)
    (Hk1 : ∀ j, j < k → cmp (xs.getD j dKP) target mode ≠ .gt)
    (Hk2 : ∀ j, k ≤ j → j < xs.length → cmp (xs.getD j dKP) target mode = .gt)
    (hk : k ≤ xs.length)
    (hex : ∃ j, j < xs.length ∧ cmp (xs.getD j dKP) target mode = .eq) :
    1 ≤ k ∧ cmp (xs.getD (k - 1) dKP) target mode = .eq ∧
      binary_search_by xs (fun probe => cmp probe target mode)
        = .found (k - 1) := by
  obtain ⟨j, hjlen, hjeq⟩ := hex
  have hjk : j < k := by
    by_contra hcon
    push_neg at hcon
    rw [Hk2 j hcon hjlen] at hjeq
    exact Ordering.noConfusion hjeq
  have hk1 : 1 ≤ k := by omega
  have hlen1 : ¬ xs.length = 0 := by omega
  have hkm1lt : k - 1 < xs.length := by omega
  have h1 : cmp (xs.getD (k - 1) dKP) target mode ≠ .gt := Hk1 (k - 1) (by omega)
  have hje : xs.getD j dKP = target := cmp_eq_iff.1 hjeq
  have h2 : cmp (xs.getD j dKP) (xs.getD (k - 1) dKP) mode ≠ .gt :=
    Hsorted j (k - 1) (by omega) hkm1lt
  rw [hje] at h2
  have h3 : cmp (xs.getD (k - 1) dKP) target mode ≠ .lt := cmp_ne_gt_iff.1 h2
  have heq : cmp (xs.getD (k - 1) dKP) target mode = .eq := by
    cases hc : cmp (xs.getD (k - 1) dKP) target mode
    · exact absurd hc h3
    · rfl
    · exact absurd hc h1
  refine ⟨hk1, heq, ?_⟩
  unfold binary_search_by
  simp only [hlen1, if_false]
  have hbase : bsLoop xs (fun probe => cmp probe target mode) xs.length 0
      xs.length = k - 1 :=
    bsLoop_eq xs _ k Hk1 Hk2 xs.length 0 xs.length le_rfl (by omega)
      (by omega) (by omega) (by omega)
  rw [hbase]
  simp only [heq]

theorem binary_search_no_eq (xs : List SortKey) (target : SortKey)
    (mode : UnderscoreOrder) (k : Nat)
    (Hk1 : ∀ j, j < k → cmp (xs.getD j dKP) target mode ≠ .gt)
    (Hk2 : ∀ j, k ≤ j → j < xs.length → cmp (xs.getD j dKP) target mode = .gt)
    (hk : k ≤ xs.length)
    (hnex : ∀ j, j < xs.length → cmp (xs.getD j dKP) target mode ≠ .eq) :
    binary_search_by xs (fun probe => cmp probe target mode)
      = .notFound k := by
  unfold binary_search_by
  by_cases h0 : xs.length = 0
  · rw [if_pos h0]
    have hk0 : k = 0 := by omega
    rw [hk0]
  · simp only [h0, if_false]
    have hbase : bsLoop xs (fun probe => cmp probe target mode) xs.length 0
        xs.length = k - 1 :=
      bsLoop_eq xs _ k Hk1 Hk2 xs.length 0 xs.length le_rfl (by omega)
        (by omega) (by omega) (by omega)
    rw [hbase]
    by_cases hk0 : k = 0
    · subst hk0
      simp only [Nat.zero_sub]
      have hgt := Hk2 0 le_rfl (by omega)
      simp only [hgt]
    · have h1 := Hk1 (k - 1) (by omega)
      have h2 := hnex (k - 1) (by omega)
      cases hc : cmp (xs.getD (k - 1) dKP) target mode
      · simp only [hc]
        congr 1
        omega
      · exact absurd hc h2
      · exact absurd hc h1

theorem checkKeys_violation (ks : List SortKey) (a i : Nat)
    (hF : find_misordered ks .First = some a)
    (hL : find_misordered ks .Last = some i) :
    ∃ k, k ≤ i - 1 ∧
      checkKeys ks = .orderViolation (ks.getD i dKP).2 (ks.getD k dKP).2 ∧
      search_correct_pos (ks.take (i - 1))
        (fun probe => cmp probe (ks.getD i dKP) .Last) = k ∧
      (∀ j, j < k → cmp (ks.getD j dKP) (ks.getD i dKP) .Last ≠ .gt) ∧
      (∀ j, k ≤ j → j < i - 1 →
        cmp (ks.getD j dKP) (ks.getD i dKP) .Last = .gt) := by
  obtain ⟨hi1, hilen, hlt, hmin⟩ := find_misordered_some hL
  have hPlen : (ks.take (i - 1)).length = i - 1 := by
    rw [List.length_take]
    omega
  have hsortP : ∀ x y, x ≤ y → y < (ks.take (i - 1)).length →
      cmp ((ks.take (i - 1)).getD x dKP) ((ks.take (i - 1)).getD y dKP) .Last
        ≠ .gt := by
    intro x y hxy hyl
    rw [hPlen] at hyl
    rw [getD_take (by omega), getD_take (by omega)]
    exact pairwise_le_of_adjacent ks .Last i (by omega) hmin x y hxy (by omega)
  obtain ⟨k, hk, Hk1, Hk2⟩ :=
    exists_partition (ks.take (i - 1)) (ks.getD i dKP) .Last hsortP
  rw [hPlen] at hk
  have Hk1' : ∀ j, j < k → cmp (ks.getD j dKP) (ks.getD i dKP) .Last ≠ .gt := by
    intro j hj
    rw [← getD_take (l := ks) (n := i - 1) (j := j) (by omega)]
    exact Hk1 j hj
  have Hk2' : ∀ j, k ≤ j → j < i - 1 →
      cmp (ks.getD j dKP) (ks.getD i dKP) .Last = .gt := by
    intro j h1 h2
    rw [← getD_take (l := ks) (n := i - 1) (j := j) h2]
    exact Hk2 j h1 (by omega)
  have hpos : search_correct_pos (ks.take (i - 1))
      (fun probe => cmp probe (ks.getD i dKP) .Last) = k :=
    search_correct_pos_eq _ _ _ k Hk1 Hk2 (by omega)
  refine ⟨k, hk, ?_, hpos, Hk1', Hk2'⟩
  unfold checkKeys
  simp only [hF, hL, hpos]

theorem sorted_fst_eq {α : Type} (S : Sortable α) (items : List α)
    (items' : List α) (ks : List SortKey)
    (hc : collect_paths S items = .ok (items', ks)) :
    (sorted S items).1 = checkKeys ks := by
  unfold sorted
  rw [hc]

theorem sorted_snd_eq {α : Type} (S : Sortable α) (items : List α)
    (items' : List α) (ks : List SortKey)
    (hc : collect_paths S items = .ok (items', ks)) :
    (sorted S items).2 = items' := by
  unfold sorted
  rw [hc]

/-- The key sequence is non-decreasing under adjacent comparison for policy
`mode`: no element compares `Less` than its predecessor. -/
def adjacentNonDecreasing (ks : List SortKey) (mode : UnderscoreOrder) : Prop :=
  ∀ j, 1 ≤ j → j < ks.length →
    cmp (ks.getD j dKP) (ks.getD (j - 1) dKP) mode ≠ .lt

theorem checkKeys_ok_iff (ks : List SortKey) :
    checkKeys ks = .ok ↔
      adjacentNonDecreasing ks .First ∨ adjacentNonDecreasing ks .Last := by
  constructor
  · intro hok
    unfold checkKeys at hok
    cases hF : find_misordered ks .First with
    | none => exact Or.inl (find_misordered_none_iff.1 hF)
    | some a =>
      simp only [hF] at hok
      cases hL : find_misordered ks .Last with
      | none => exact Or.inr (find_misordered_none_iff.1 hL)
      | some i =>
        simp only [hL] at hok
        exact absurd hok (by simp)
  · intro h
    rcases h with h | h
    · have hF := find_misordered_none_iff.2 h
      unfold checkKeys
      simp only [hF]
    · cases hF : find_misordered ks .First with
      | none =>
        unfold checkKeys
        simp only [hF]
      | some a =>
        have hL := find_misordered_none_iff.2 h
        unfold checkKeys
        simp only [hF, hL]

/-- C1: for every container whose non-excluded declarations all yield a sort
key, the check succeeds iff the key sequence is non-decreasing under
adjacent comparison for at least one of the two wildcard policies — if it is
non-decreasing under `First` the check succeeds regardless of `Last`, and
otherwise it succeeds exactly when it is non-decreasing under `Last`. -/
theorem claim_C1 {α : Type} (S : Sortable α) (items items' : List α)
    (ks : List SortKey)
    (hc : collect_paths S items = .ok (items', ks)) :
    (sorted S items).1 = .ok ↔
      (adjacentNonDecreasing ks .First ∨ adjacentNonDecreasing ks .Last) := by
  rw [sorted_fst_eq S items items' ks hc]
  exact checkKeys_ok_iff ks

theorem claim_C1_witness :
    collect_paths sortableVariant [⟨"B", []⟩, ⟨"A", []⟩]
      = .ok ([⟨"B", []⟩, ⟨"A", []⟩], [(0, ⟨["B"]⟩), (0, ⟨["A"]⟩)]) ∧
    ((sorted sortableVariant [⟨"B", []⟩, ⟨"A", []⟩]).1 = .ok ↔
      (adjacentNonDecreasing [(0, ⟨["B"]⟩), (0, ⟨["A"]⟩)] .First ∨
       adjacentNonDecreasing [(0, ⟨["B"]⟩), (0, ⟨["A"]⟩)] .Last)) :=
  ⟨rfl, claim_C1 sortableVariant [⟨"B", []⟩, ⟨"A", []⟩]
    [⟨"B", []⟩, ⟨"A", []⟩] [(0, ⟨["B"]⟩), (0, ⟨["A"]⟩)] rfl⟩

/-- C10: for every container whose filtered key sequence has zero or one
element — in particular an empty container, or one in which every
declaration carries an exclusion marker — the check succeeds, provided key
derivation succeeds for each non-excluded declaration. -/
theorem claim_C10 {α : Type} (S : Sortable α) (items items' : List α)
    (ks : List SortKey)
    (hc : collect_paths S items = .ok (items', ks))
    (hlen : ks.length ≤ 1) :
    (sorted S items).1 = .ok := by
  rw [sorted_fst_eq S items items' ks hc]
  unfold checkKeys
  have hF : find_misordered ks .First = none := by
    apply find_misordered_none_iff.2
    intro j h1 h2
    omega
  simp only [hF]

theorem claim_C10_witness :
    collect_paths sortableVariant
        [⟨"Z", [⟨"unsorted", ""⟩]⟩, ⟨"A", [⟨"remain :: unsorted", ""⟩]⟩]
      = .ok ([⟨"Z", []⟩, ⟨"A", []⟩], ([] : List SortKey)) ∧
    ([] : List SortKey).length ≤ 1 ∧
    (sorted sortableVariant
        [⟨"Z", [⟨"unsorted", ""⟩]⟩, ⟨"A", [⟨"remain :: unsorted", ""⟩]⟩]).1
      = .ok :=
  ⟨rfl, by decide,
    claim_C10 sortableVariant _ [⟨"Z", []⟩, ⟨"A", []⟩] [] rfl (by decide)⟩

/-- C8: stripping the exclusion annotation removes exactly the first
annotation spelled in either accepted form (`unsorted` or
`remain :: unsorted`) and reports `true`, leaving every other annotation
untouched; with no exclusion annotation present it reports `false` and
leaves the list completely unchanged. -/
theorem claim_C8 :
    (∀ as : List Attribute,
      (∀ a ∈ as, ¬(a.path = "unsorted" ∨ a.path = "remain :: unsorted")) →
        remove_unsorted_attr as = (false, as)) ∧
    (∀ (pre : List Attribute) (m : Attribute) (post : List Attribute),
      (∀ a ∈ pre, ¬(a.path = "unsorted" ∨ a.path = "remain :: unsorted")) →
      (m.path = "unsorted" ∨ m.path = "remain :: unsorted") →
        remove_unsorted_attr (pre ++ m :: post) = (true, pre ++ post)) := by
  constructor
  · intro as
    induction as with
    | nil =>
      intro _
      rfl
    | cons a rest ih =>
      intro h
      have ha := h a (by simp)
      have hrest := ih (fun a' ha' => h a' (by simp [ha']))
      simp [remove_unsorted_attr, ha, hrest]
  · intro pre m post
    induction pre with
    | nil =>
      intro _ hm
      simp [remove_unsorted_attr, hm]
    | cons a rest ih =>
      intro h hm
      have ha := h a (by simp)
      have hrest := ih (fun a' ha' => h a' (by simp [ha'])) hm
      simp [remove_unsorted_attr, ha, hrest]

theorem claim_C8_witness :
    remove_unsorted_attr
        [⟨"derive", "(Debug)"⟩, ⟨"remain :: unsorted", ""⟩, ⟨"serde", ""⟩]
      = (true, [⟨"derive", "(Debug)"⟩, ⟨"serde", ""⟩]) ∧
    remove_unsorted_attr [⟨"derive", "(Debug)"⟩, ⟨"serde", ""⟩]
      = (false, [⟨"derive", "(Debug)"⟩, ⟨"serde", ""⟩]) :=
  ⟨claim_C8.2 [⟨"derive", "(Debug)"⟩] ⟨"remain :: unsorted", ""⟩
      [⟨"serde", ""⟩] (by decide) (by decide),
    claim_C8.1 [⟨"derive", "(Debug)"⟩, ⟨"serde", ""⟩] (by decide)⟩

theorem collect_skip {α : Type} (S : Sortable α) (d : α) (as : List Attribute)
    (hd : S.attrs d = .ok as) (hm : (remove_unsorted_attr as).1 = true) :
    ∀ (items1 items2 : List α),
      (∃ e, collect_paths S (items1 ++ d :: items2) = .error e ∧
            collect_paths S (items1 ++ items2) = .error e) ∨
      (∃ l1 l2 ks, collect_paths S (items1 ++ d :: items2) = .ok (l1, ks) ∧
            collect_paths S (items1 ++ items2) = .ok (l2, ks)) := by
  intro items1
  induction items1 with
  | nil =>
    intro items2
    cases hcoll : collect_paths S items2 with
    | error e =>
      left
      refine ⟨e, ?_, hcoll⟩
      simp [collect_paths, hd, hm, hcoll]
    | ok p =>
      right
      obtain ⟨rest, ks⟩ := p
      refine ⟨S.setAttrs d (remove_unsorted_attr as).2 :: rest, rest, ks,
        ?_, hcoll⟩
      simp [collect_paths, hd, hm, hcoll]
  | cons x items1 ih =>
    intro items2
    cases hax : S.attrs x with
    | error msg =>
      left
      exact ⟨.panicked msg, by simp [collect_paths, hax],
        by simp [collect_paths, hax]⟩
    | ok asx =>
      by_cases hmx : (remove_unsorted_attr asx).1 = true
      · rcases ih items2 with ⟨e, h1, h2⟩ | ⟨l1, l2, ks, h1, h2⟩
        · left
          exact ⟨e, by simp [collect_paths, hax, hmx, h1],
            by simp [collect_paths, hax, hmx, h2]⟩
        · right
          refine ⟨S.setAttrs x (remove_unsorted_attr asx).2 :: l1,
            S.setAttrs x (remove_unsorted_attr asx).2 :: l2, ks, ?_, ?_⟩
          · simp [collect_paths, hax, hmx, h1]
          · simp [collect_paths, hax, hmx, h2]
      · cases htp : S.to_path (S.setAttrs x (remove_unsorted_attr asx).2) with
        | error e =>
          left
          exact ⟨e, by simp [collect_paths, hax, hmx, htp],
            by simp [collect_paths, hax, hmx, htp]⟩
        | ok p =>
          rcases ih items2 with ⟨e, h1, h2⟩ | ⟨l1, l2, ks, h1, h2⟩
          · left
            exact ⟨e, by simp [collect_paths, hax, hmx, htp, h1],
              by simp [collect_paths, hax, hmx, htp, h2]⟩
          · right
            refine ⟨S.setAttrs x (remove_unsorted_attr asx).2 :: l1,
              S.setAttrs x (remove_unsorted_attr asx).2 :: l2,
              (S.category (S.setAttrs x (remove_unsorted_attr asx).2), p) :: ks,
              ?_, ?_⟩
            · simp [collect_paths, hax, hmx, htp, h1]
            · simp [collect_paths, hax, hmx, htp, h2]

/-- C5: a declaration carrying an exclusion marker is skipped entirely:
the check's outcome on a container with the marked declaration inserted
anywhere equals its outcome on the container without it, for an arbitrary
declaration `d` — in particular one whose key derivation would fail — so
exclusion-checking happens before key derivation, an excluded declaration
never needs a valid sort key, and a container that is sorted except for one
arbitrarily-placed excluded declaration passes. -/
theorem claim_C5 {α : Type} (S : Sortable α) (items1 items2 : List α)
    (d : α) (as : List Attribute)
    (hd : S.attrs d = .ok as)
    (hm : (remove_unsorted_attr as).1 = true) :
    (sorted S (items1 ++ d :: items2)).1 = (sorted S (items1 ++ items2)).1 := by
  rcases collect_skip S d as hd hm items1 items2 with
    ⟨e, h1, h2⟩ | ⟨l1, l2, ks, h1, h2⟩
  · cases e with
    | unsupported m => simp [sorted, h1, h2]
    | panicked m => simp [sorted, h1, h2]
  · simp [sorted, h1, h2]

theorem claim_C5_witness :
    (sorted sortableField
        ([⟨some "a", []⟩] ++ ⟨none, [⟨"unsorted", ""⟩]⟩ :: [⟨some "b", []⟩])).1
      = .ok :=
  (claim_C5 sortableField [⟨some "a", []⟩] [⟨some "b", []⟩]
      ⟨none, [⟨"unsorted", ""⟩]⟩ [⟨"unsorted", ""⟩] rfl (by decide)).trans
    (by decide)

theorem remove_false_eq :
    ∀ (as : List Attribute), (remove_unsorted_attr as).1 = false →
      (remove_unsorted_attr as).2 = as := by
  intro as
  induction as with
  | nil =>
    intro _
    rfl
  | cons a rest ih =>
    intro h
    by_cases hc : (a.path = "unsorted" ∨ a.path = "remain :: unsorted")
    · simp [remove_unsorted_attr, hc] at h
    · simp only [remove_unsorted_attr, hc, if_false] at h ⊢
      simp at h ⊢
      exact ih h

theorem collect_no_marker {α : Type} (S : Sortable α) :
    ∀ (items : List α),
      (∀ x ∈ items, ∀ as, S.attrs x = .ok as →
        (remove_unsorted_attr as).1 = false) →
      (∃ e, collect_paths S items = .error e) ∨
      (∃ ks, collect_paths S items = .ok (items, ks)) := by
  intro items
  induction items with
  | nil =>
    intro _
    right
    exact ⟨[], rfl⟩
  | cons x xs ih =>
    intro hM
    cases hax : S.attrs x with
    | error msg =>
      left
      exact ⟨.panicked msg, by simp [collect_paths, hax]⟩
    | ok asx =>
      have hmx : (remove_unsorted_attr asx).1 = false := hM x (by simp) asx hax
      have hset : S.setAttrs x (remove_unsorted_attr asx).2 = x := by
        rw [remove_false_eq asx hmx]
        exact S.set_attrs_id x asx hax
      have hmx' : ¬((remove_unsorted_attr asx).1 = true) := by simp [hmx]
      cases htp : S.to_path (S.setAttrs x (remove_unsorted_attr asx).2) with
      | error e =>
        left
        exact ⟨e, by simp [collect_paths, hax, hmx', htp]⟩
      | ok p =>
        rw [hset] at htp
        rcases ih (fun y hy => hM y (by simp [hy])) with ⟨e, h1⟩ | ⟨ks, h1⟩
        · left
          exact ⟨e, by simp [collect_paths, hax, hmx', htp, h1, hset]⟩
        · right
          refine ⟨(S.category x, p) :: ks, ?_⟩
          simp [collect_paths, hax, hmx', htp, h1, hset]

/-- C9 counterexample: the check succeeds on an enum whose out-of-place
variant carries the exclusion marker; the first run strips that marker in
place, so the second run on the mutated container sees the previously
excluded key and fails.  This falsifies the claim that a second run on the
mutated container always succeeds. -/
theorem claim_C9_counterexample :
    (sorted sortableVariant
        [⟨"A", []⟩, ⟨"Z", [⟨"unsorted", ""⟩]⟩, ⟨"B", []⟩]).1 = .ok ∧
    (sorted sortableVariant
        ((sorted sortableVariant
          [⟨"A", []⟩, ⟨"Z", [⟨"unsorted", ""⟩]⟩, ⟨"B", []⟩]).2)).1
      ≠ .ok := by
  constructor
  · decide
  · decide

/-- C9 (amended): for every container on which the check succeeds and whose
declarations carry no exclusion marker — so that the first run's in-place
stripping leaves the container unchanged — running the check a second time
on the (unchanged) container also succeeds.  With markers present the
second run can fail, because the stripped declarations re-enter
consideration (see the counterexample). -/
theorem claim_C9_amended {α : Type} (S : Sortable α) (items : List α)
    (hM : ∀ x ∈ items, ∀ as, S.attrs x = .ok as →
      (remove_unsorted_attr as).1 = false)
    (hOk : (sorted S items).1 = .ok) :
    (sorted S items).2 = items ∧
    (sorted S ((sorted S items).2)).1 = .ok := by
  rcases collect_no_marker S items hM with ⟨e, hc⟩ | ⟨ks, hc⟩
  · exfalso
    cases e with
    | unsupported m => simp [sorted, hc] at hOk
    | panicked m => simp [sorted, hc] at hOk
  · have h2 : (sorted S items).2 = items := sorted_snd_eq S items items ks hc
    refine ⟨h2, ?_⟩
    rw [h2]
    exact hOk

theorem claim_C9_witness :
    (sorted sortableVariant [⟨"A", []⟩, ⟨"B", []⟩]).2
      = [⟨"A", []⟩, ⟨"B", []⟩] ∧
    (sorted sortableVariant
        ((sorted sortableVariant [⟨"A", []⟩, ⟨"B", []⟩]).2)).1 = .ok :=
  claim_C9_amended sortableVariant [⟨"A", []⟩, ⟨"B", []⟩]
    (by
      intro x hx as has
      simp only [List.mem_cons, List.not_mem_nil, or_false] at hx
      rcases hx with rfl | rfl <;>
        (injection has with h; rw [← h]; decide))
    (by decide)

/-- Whether the check outcome is an error value returned to the caller
(an `Err(syn::Error)` in the source, rendered as a compiler diagnostic):
an order violation or an unsupported-declaration error.  A panic unwinds
instead of returning and is not a returned error. -/
def isReturnedError : CheckResult → Bool
  | .orderViolation _ _ => true
  | .unsupported _ => true
  | .ok => false
  | .panicked _ => false

/-- C6 counterexample: on a struct with a single unnamed field the check
panics with "must be named field" (the source's
`self.ident.clone().expect("must be named field")`); it does not return an
error value, contradicting the claim that the check returns an error rather
than a key. -/
theorem claim_C6_counterexample :
    (sorted sortableField [⟨none, []⟩]).1 = .panicked "must be named field" ∧
    isReturnedError (sorted sortableField [⟨none, []⟩]).1 = false := by
  constructor
  · decide
  · decide

theorem collect_field_unnamed :
    ∀ (fields : List Field),
      (∃ f ∈ fields, f.ident = none ∧
        (remove_unsorted_attr f.attrs).1 = false) →
      collect_paths sortableField fields
        = .error (.panicked "must be named field") := by
  intro fields
  induction fields with
  | nil =>
    intro h
    obtain ⟨f, hmem, _⟩ := h
    exact absurd hmem (List.not_mem_nil f)
  | cons x xs ih =>
    intro h
    obtain ⟨f, hmem, hfi, hfm⟩ := h
    have hax : sortableField.attrs x = .ok x.attrs := rfl
    by_cases hmx : (remove_unsorted_attr x.attrs).1 = true
    · have hmem' : f ∈ xs := by
        rcases List.mem_cons.mp hmem with rfl | hm'
        · rw [hfm] at hmx
          exact absurd hmx (by simp)
        · exact hm'
      have hxs := ih ⟨f, hmem', hfi, hfm⟩
      simp [collect_paths, hax, hmx, hxs]
    · cases hix : x.ident with
      | none =>
        have htp : sortableField.to_path
            (sortableField.setAttrs x (remove_unsorted_attr x.attrs).2)
            = .error (.panicked "must be named field") := by
          simp [sortableField, hix]
        simp [collect_paths, hax, hmx, htp]
      | some nm =>
        have hmem' : f ∈ xs := by
          rcases List.mem_cons.mp hmem with rfl | hm'
          · rw [hix] at hfi
            exact Option.noConfusion hfi
          · exact hm'
        have hxs := ih ⟨f, hmem', hfi, hfm⟩
        have htp : sortableField.to_path
            (sortableField.setAttrs x (remove_unsorted_attr x.attrs).2)
            = .ok ⟨[nm]⟩ := by
          simp [sortableField, hix]
        simp [collect_paths, hax, hmx, htp, hxs]

/-- C6 (amended): for every struct field list containing a non-excluded
field with no name, key derivation for that field fails by panicking with
"must be named field" — aborting the check without returning either a key
or an error value — since only named declarations are supported by the
field adapter. -/
theorem claim_C6_amended (fields : List Field)
    (hf : ∃ f ∈ fields, f.ident = none ∧
      (remove_unsorted_attr f.attrs).1 = false) :
    (sorted sortableField fields).1 = .panicked "must be named field" ∧
    isReturnedError (sorted sortableField fields).1 = false := by
  have hc := collect_field_unnamed fields hf
  constructor
  · simp [sorted, hc]
  · simp [sorted, hc, isReturnedError]

theorem claim_C6_witness :
    (sorted sortableField [⟨some "a", []⟩, ⟨none, []⟩]).1
      = .panicked "must be named field" ∧
    isReturnedError (sorted sortableField [⟨some "a", []⟩, ⟨none, []⟩]).1
      = false :=
  claim_C6_amended [⟨some "a", []⟩, ⟨none, []⟩]
    ⟨⟨none, []⟩, by simp, rfl, by decide⟩

/-- Whether a pattern is an alternation (`Pat::Or`). -/
def Pat.isOr : Pat → Bool
  | .or _ => true
  | _ => false

/-- C7: the path derived from a match/let arm follows the arm's pattern: a
plain name binding (no by-ref, no mutability, no sub-pattern) contributes
its single name; qualified-path, structured and tuple-style patterns
contribute their full segment path; a wildcard contributes the single
reserved wildcard segment; an alternation contributes the path of its first
alternative only (the path that alternative would contribute as a
standalone arm); every other pattern kind — including a name binding that
carries by-ref, mutability or a sub-pattern — is rejected with the
unsupported-pattern error. -/
theorem claim_C7 :
    (∀ (as : List Attribute) (nm : String),
      armToPath ⟨.ident false false nm false, as⟩ = .ok ⟨[nm]⟩) ∧
    (∀ (as : List Attribute) (br mt sub : Bool) (nm : String),
      (br = true ∨ mt = true ∨ sub = true) →
      armToPath ⟨.ident br mt nm sub, as⟩
        = .error (.unsupported "unsupported by #[remain::sorted]")) ∧
    (∀ (as : List Attribute) (segs : List String),
      armToPath ⟨.path segs, as⟩ = .ok ⟨segs⟩) ∧
    (∀ (as : List Attribute) (segs : List String),
      armToPath ⟨.struct segs, as⟩ = .ok ⟨segs⟩) ∧
    (∀ (as : List Attribute) (segs : List String),
      armToPath ⟨.tupleStruct segs, as⟩ = .ok ⟨segs⟩) ∧
    (∀ (as : List Attribute), armToPath ⟨.wild, as⟩ = .ok ⟨[wildcard]⟩) ∧
    (∀ (as : List Attribute) (p : Pat) (ps : List Pat), p.isOr = false →
      armToPath ⟨.or (p :: ps), as⟩ = armToPath ⟨p, as⟩) ∧
    (∀ (as : List Attribute), armToPath ⟨.other, as⟩
      = .error (.unsupported "unsupported by #[remain::sorted]")) := by
  refine ⟨fun as nm => rfl, ?_, fun as segs => rfl, fun as segs => rfl,
    fun as segs => rfl, fun as => rfl, ?_, fun as => rfl⟩
  · intro as br mt sub nm h
    have hji : is_just_ident br mt sub = false := by
      rcases h with rfl | rfl | rfl <;> simp [is_just_ident]
    simp [armToPath, patFirst, patSegments, hji]
  · intro as p ps hp
    cases p with
    | ident br mt nm sub => rfl
    | path segs => rfl
    | struct segs => rfl
    | tupleStruct segs => rfl
    | wild => rfl
    | or cases' => exact absurd hp (by simp [Pat.isOr])
    | other => rfl

theorem claim_C7_witness :
    armToPath ⟨.ident false false "x" false, []⟩ = .ok ⟨["x"]⟩ ∧
    armToPath ⟨.ident true false "x" false, []⟩
      = .error (.unsupported "unsupported by #[remain::sorted]") ∧
    armToPath ⟨.or [.path ["E", "A"], .wild], []⟩
      = armToPath ⟨.path ["E", "A"], []⟩ :=
  ⟨claim_C7.1 [] "x",
    claim_C7.2.1 [] true false false "x" (Or.inl rfl),
    claim_C7.2.2.2.2.2.2.1 [] (.path ["E", "A"]) [.wild] rfl⟩

/-- C4: for trait/impl members the derived category is 0 for a constant, 1
for an associated type, 2 for a method and 3 for a macro invocation; the
category is the primary (most significant) component of the sort key, so a
lower-category member appearing after a higher-category one fails the
check, and two same-category members whose single-segment concrete paths
are out of alphabetical order fail the check even when members of other
categories sit between them. -/
theorem claim_C4 :
    (∀ (nm : String) (as : List Attribute),
      sortableImplItem.category (.const nm as) = 0 ∧
      sortableImplItem.category (.assocType nm as) = 1 ∧
      sortableImplItem.category (.method nm as) = 2) ∧
    (∀ (segs : List String) (as : List Attribute),
      sortableImplItem.category (.mcr segs as) = 3) ∧
    (∀ (a b : SortKey) (mode : UnderscoreOrder),
      a.1 < b.1 → cmp a b mode = .lt) ∧
    (∀ (ks : List SortKey) (i j : Nat), i < j → j < ks.length →
      (ks.getD j dKP).1 < (ks.getD i dKP).1 → checkKeys ks ≠ .ok) ∧
    (∀ (ks : List SortKey) (i j : Nat) (c : Category) (x y : String),
      i < j → j < ks.length →
      ks.getD i dKP = (c, ⟨[x]⟩) → ks.getD j dKP = (c, ⟨[y]⟩) →
      x ≠ wildcard → y ≠ wildcard → cmpStr y x = .lt →
      checkKeys ks ≠ .ok) := by
  refine ⟨fun nm as => ⟨rfl, rfl, rfl⟩, fun segs as => rfl, ?_, ?_, ?_⟩
  · intro a b mode h
    unfold cmp
    rw [cmpNat_lt_iff.2 h]
  · intro ks i j hij hjlen hcat hok
    have hnd := (checkKeys_ok_iff ks).1 hok
    have hgt : ∀ mode, cmp (ks.getD i dKP) (ks.getD j dKP) mode = .gt := by
      intro mode
      unfold cmp
      rw [cmpNat_gt_iff.2 hcat]
    rcases hnd with h | h
    · exact pairwise_le_of_adjacent ks .First ks.length le_rfl h i j
        (Nat.le_of_lt hij) hjlen (hgt .First)
    · exact pairwise_le_of_adjacent ks .Last ks.length le_rfl h i j
        (Nat.le_of_lt hij) hjlen (hgt .Last)
  · intro ks i j c x y hij hjlen hgi hgj hx hy hyx hok
    have hnd := (checkKeys_ok_iff ks).1 hok
    have hgt : ∀ mode, cmp (ks.getD i dKP) (ks.getD j dKP) mode = .gt := by
      intro mode
      rw [hgi, hgj]
      have hseg : cmpSegment mode x y = .gt := by
        have hxy : cmpStr x y = .gt := cmpStr_gt_iff.2 hyx
        simp [cmpSegment, hx, hy, hxy]
      have hcc : cmpNat c c = .eq := cmpNat_eq_iff.2 rfl
      simp [cmp, hcc, cmpSegments, hseg]
    rcases hnd with h | h
    · exact pairwise_le_of_adjacent ks .First ks.length le_rfl h i j
        (Nat.le_of_lt hij) hjlen (hgt .First)
    · exact pairwise_le_of_adjacent ks .Last ks.length le_rfl h i j
        (Nat.le_of_lt hij) hjlen (hgt .Last)

theorem claim_C4_witness :
    (sorted sortableImplItem
        [.const "X" [], .method "g" [], .const "Y" []]).1 ≠ .ok := by
  have heq : (sorted sortableImplItem
      [.const "X" [], .method "g" [], .const "Y" []]).1
      = checkKeys [(0, ⟨["X"]⟩), (2, ⟨["g"]⟩), (0, ⟨["Y"]⟩)] :=
    sorted_fst_eq sortableImplItem _ _ _ rfl
  have h := claim_C4.2.2.2.1 [(0, ⟨["X"]⟩), (2, ⟨["g"]⟩), (0, ⟨["Y"]⟩)] 1 2
    (by decide) (by decide) (by decide)
  intro hok
  exact h (heq ▸ hok)

/-- C3: for every container failing with an order violation at index `i`
under the `Last` policy, the reported reference element is `keys[k]` for a
`k < i` such that: when no key in `keys[0..i]` compares equal to the
violator, `keys[k]` is the smallest-indexed element of `keys[0..i]` that is
greater than or equal to the violator under `Last` (everything before it is
strictly less); and when equal keys are present, `keys[k]` is the element
just past the entire run of keys equal to the violator. -/
theorem claim_C3 {α : Type} (S : Sortable α) (items items' : List α)
    (ks : List SortKey) (i : Nat)
    (hc : collect_paths S items = .ok (items', ks))
    (hF : find_misordered ks .First ≠ none)
    (hL : find_misordered ks .Last = some i) :
    ∃ k, k < i ∧
      (sorted S items).1
        = .orderViolation (ks.getD i dKP).2 (ks.getD k dKP).2 ∧
      ((∀ j, j < i → cmp (ks.getD j dKP) (ks.getD i dKP) .Last ≠ .eq) →
        cmp (ks.getD k dKP) (ks.getD i dKP) .Last ≠ .lt ∧
        ∀ j, j < k → cmp (ks.getD j dKP) (ks.getD i dKP) .Last = .lt) ∧
      ((∃ j, j < i ∧ cmp (ks.getD j dKP) (ks.getD i dKP) .Last = .eq) →
        1 ≤ k ∧ cmp (ks.getD (k - 1) dKP) (ks.getD i dKP) .Last = .eq ∧
        ∀ j, k ≤ j → j < i →
          cmp (ks.getD j dKP) (ks.getD i dKP) .Last ≠ .eq) := by
  obtain ⟨a, hFa⟩ : ∃ a, find_misordered ks .First = some a := by
    cases hFc : find_misordered ks .First with
    | none => exact absurd hFc hF
    | some a => exact ⟨a, rfl⟩
  obtain ⟨k, hk, hck, hpos, Hk1, Hk2⟩ := checkKeys_violation ks a i hFa hL
  obtain ⟨hi1, hilen, hlt, hmin⟩ := find_misordered_some hL
  have hki : k < i := by omega
  have hpred : cmp (ks.getD (i - 1) dKP) (ks.getD i dKP) .Last = .gt :=
    cmp_gt_iff.2 hlt
  have Hk2i : ∀ j, k ≤ j → j < i →
      cmp (ks.getD j dKP) (ks.getD i dKP) .Last = .gt := by
    intro j h1 h2
    rcases Nat.lt_or_ge j (i - 1) with h3 | h3
    · exact Hk2 j h1 h3
    · have hj : j = i - 1 := by omega
      rw [hj]
      exact hpred
  refine ⟨k, hki, ?_, ?_, ?_⟩
  · rw [sorted_fst_eq S items items' ks hc]
    exact hck
  · intro hnoeq
    constructor
    · rw [Hk2i k le_rfl hki]
      simp
    · intro j hj
      have h1 := Hk1 j hj
      have h2 := hnoeq j (by omega)
      cases hcj : cmp (ks.getD j dKP) (ks.getD i dKP) .Last
      · rfl
      · exact absurd hcj h2
      · exact absurd hcj h1
  · rintro ⟨j0, hj0i, hj0eq⟩
    have hj0k : j0 < k := by
      by_contra hcon
      push_neg at hcon
      rw [Hk2i j0 hcon hj0i] at hj0eq
      exact Ordering.noConfusion hj0eq
    have hk1 : 1 ≤ k := by omega
    refine ⟨hk1, ?_, ?_⟩
    · have h1 : cmp (ks.getD (k - 1) dKP) (ks.getD i dKP) .Last ≠ .gt :=
        Hk1 (k - 1) (by omega)
      have hje : ks.getD j0 dKP = ks.getD i dKP := cmp_eq_iff.1 hj0eq
      have hs : cmp (ks.getD j0 dKP) (ks.getD (k - 1) dKP) .Last ≠ .gt :=
        pairwise_le_of_adjacent ks .Last i (by omega) hmin j0 (k - 1)
          (by omega) (by omega)
      rw [hje] at hs
      have h3 : cmp (ks.getD (k - 1) dKP) (ks.getD i dKP) .Last ≠ .lt :=
        cmp_ne_gt_iff.1 hs
      cases hcc : cmp (ks.getD (k - 1) dKP) (ks.getD i dKP) .Last
      · exact absurd hcc h3
      · rfl
      · exact absurd hcc h1
    · intro j h1 h2 heq2
      rw [Hk2i j h1 h2] at heq2
      exact Ordering.noConfusion heq2

theorem claim_C3_witness :
    ∃ k, k < 3 ∧
      (sorted sortableVariant [⟨"A", []⟩, ⟨"B", []⟩, ⟨"D", []⟩, ⟨"C", []⟩]).1
        = .orderViolation
            (([(0, ⟨["A"]⟩), (0, ⟨["B"]⟩), (0, ⟨["D"]⟩),
                (0, ⟨["C"]⟩)].getD 3 dKP).2)
            (([(0, ⟨["A"]⟩), (0, ⟨["B"]⟩), (0, ⟨["D"]⟩),
                (0, ⟨["C"]⟩)].getD k dKP).2) ∧
      ((∀ j, j < 3 →
          cmp ([(0, ⟨["A"]⟩), (0, ⟨["B"]⟩), (0, ⟨["D"]⟩),
              (0, ⟨["C"]⟩)].getD j dKP)
            ([(0, ⟨["A"]⟩), (0, ⟨["B"]⟩), (0, ⟨["D"]⟩),
              (0, ⟨["C"]⟩)].getD 3 dKP) .Last ≠ .eq) →
        cmp ([(0, ⟨["A"]⟩), (0, ⟨["B"]⟩), (0, ⟨["D"]⟩),
            (0, ⟨["C"]⟩)].getD k dKP)
          ([(0, ⟨["A"]⟩), (0, ⟨["B"]⟩), (0, ⟨["D"]⟩),
            (0, ⟨["C"]⟩)].getD 3 dKP) .Last ≠ .lt ∧
        ∀ j, j < k →
          cmp ([(0, ⟨["A"]⟩), (0, ⟨["B"]⟩), (0, ⟨["D"]⟩),
              (0, ⟨["C"]⟩)].getD j dKP)
            ([(0, ⟨["A"]⟩), (0, ⟨["B"]⟩), (0, ⟨["D"]⟩),
              (0, ⟨["C"]⟩)].getD 3 dKP) .Last = .lt) ∧
      ((∃ j, j < 3 ∧
          cmp ([(0, ⟨["A"]⟩), (0, ⟨["B"]⟩), (0, ⟨["D"]⟩),
              (0, ⟨["C"]⟩)].getD j dKP)
            ([(0, ⟨["A"]⟩), (0, ⟨["B"]⟩), (0, ⟨["D"]⟩),
              (0, ⟨["C"]⟩)].getD 3 dKP) .Last = .eq) →
        1 ≤ k ∧
        cmp ([(0, ⟨["A"]⟩), (0, ⟨["B"]⟩), (0, ⟨["D"]⟩),
            (0, ⟨["C"]⟩)].getD (k - 1) dKP)
          ([(0, ⟨["A"]⟩), (0, ⟨["B"]⟩), (0, ⟨["D"]⟩),
            (0, ⟨["C"]⟩)].getD 3 dKP) .Last = .eq ∧
        ∀ j, k ≤ j → j < 3 →
          cmp ([(0, ⟨["A"]⟩), (0, ⟨["B"]⟩), (0, ⟨["D"]⟩),
              (0, ⟨["C"]⟩)].getD j dKP)
            ([(0, ⟨["A"]⟩), (0, ⟨["B"]⟩), (0, ⟨["D"]⟩),
              (0, ⟨["C"]⟩)].getD 3 dKP) .Last ≠ .eq) :=
  claim_C3 sortableVariant [⟨"A", []⟩, ⟨"B", []⟩, ⟨"D", []⟩, ⟨"C", []⟩]
    [⟨"A", []⟩, ⟨"B", []⟩, ⟨"D", []⟩, ⟨"C", []⟩]
    [(0, ⟨["A"]⟩), (0, ⟨["B"]⟩), (0, ⟨["D"]⟩), (0, ⟨["C"]⟩)] 3
    rfl (by decide) (by decide)

/-- C2: when both passes find a decrease, the reported violator is the key
at the smallest index `i ≥ 1` with `keys[i]` comparing less than
`keys[i-1]` under `Last`, and the reference element is `keys[p]`, with `p`
obtained by binary-searching `keys[0..i-1]` (the slice excluding the
immediate predecessor) for the violator under `Last`: one past the found
index on an exact equal match, and the insertion position (everything
before `p` strictly less, everything from `p` on strictly greater) when no
equal match exists; in particular when `i = 1` the search range is empty
and the reference element is `keys[0]`. -/
theorem claim_C2 {α : Type} (S : Sortable α) (items items' : List α)
    (ks : List SortKey) (i : Nat)
    (hc : collect_paths S items = .ok (items', ks))
    (hF : find_misordered ks .First ≠ none)
    (hL : find_misordered ks .Last = some i) :
    (1 ≤ i ∧ i < ks.length ∧
      cmp (ks.getD i dKP) (ks.getD (i - 1) dKP) .Last = .lt ∧
      ∀ j, 1 ≤ j → j < i →
        cmp (ks.getD j dKP) (ks.getD (j - 1) dKP) .Last ≠ .lt) ∧
    (∀ e, binary_search_by (ks.take (i - 1))
        (fun probe => cmp probe (ks.getD i dKP) .Last) = .found e →
      e < i - 1 ∧
      cmp (ks.getD e dKP) (ks.getD i dKP) .Last = .eq ∧
      (sorted S items).1
        = .orderViolation (ks.getD i dKP).2 (ks.getD (e + 1) dKP).2) ∧
    (∀ p, binary_search_by (ks.take (i - 1))
        (fun probe => cmp probe (ks.getD i dKP) .Last) = .notFound p →
      (∀ j, j < i - 1 → cmp (ks.getD j dKP) (ks.getD i dKP) .Last ≠ .eq) ∧
      (∀ j, j < p → cmp (ks.getD j dKP) (ks.getD i dKP) .Last = .lt) ∧
      (∀ j, p ≤ j → j < i - 1 →
        cmp (ks.getD j dKP) (ks.getD i dKP) .Last = .gt) ∧
      (sorted S items).1
        = .orderViolation (ks.getD i dKP).2 (ks.getD p dKP).2) ∧
    (i = 1 → (sorted S items).1
        = .orderViolation (ks.getD 1 dKP).2 (ks.getD 0 dKP).2) := by
  obtain ⟨a, hFa⟩ : ∃ a, find_misordered ks .First = some a := by
    cases hFc : find_misordered ks .First with
    | none => exact absurd hFc hF
    | some a => exact ⟨a, rfl⟩
  obtain ⟨k, hk, hck, hpos, Hk1, Hk2⟩ := checkKeys_violation ks a i hFa hL
  obtain ⟨hi1, hilen, hlt, hmin⟩ := find_misordered_some hL
  have hsf : (sorted S items).1 = checkKeys ks :=
    sorted_fst_eq S items items' ks hc
  have hPlen : (ks.take (i - 1)).length = i - 1 := by
    rw [List.length_take]
    omega
  have Hk1P : ∀ j, j < k →
      cmp ((ks.take (i - 1)).getD j dKP) (ks.getD i dKP) .Last ≠ .gt := by
    intro j hj
    rw [getD_take (by omega)]
    exact Hk1 j hj
  have Hk2P : ∀ j, k ≤ j → j < (ks.take (i - 1)).length →
      cmp ((ks.take (i - 1)).getD j dKP) (ks.getD i dKP) .Last = .gt := by
    intro j h1 h2
    rw [hPlen] at h2
    rw [getD_take (by omega)]
    exact Hk2 j h1 h2
  have hkP : k ≤ (ks.take (i - 1)).length := by
    rw [hPlen]
    exact hk
  have hsortP : ∀ x y, x ≤ y → y < (ks.take (i - 1)).length →
      cmp ((ks.take (i - 1)).getD x dKP) ((ks.take (i - 1)).getD y dKP) .Last
        ≠ .gt := by
    intro x y hxy hyl
    rw [hPlen] at hyl
    rw [getD_take (by omega), getD_take (by omega)]
    exact pairwise_le_of_adjacent ks .Last i (by omega) hmin x y hxy (by omega)
  refine ⟨⟨hi1, hilen, hlt, hmin⟩, ?_⟩
  by_cases hex : ∃ j, j < (ks.take (i - 1)).length ∧
      cmp ((ks.take (i - 1)).getD j dKP) (ks.getD i dKP) .Last = .eq
  · obtain ⟨hk1, heqP, hfound⟩ := binary_search_eq_found (ks.take (i - 1))
      (ks.getD i dKP) .Last k hsortP Hk1P Hk2P hkP hex
    refine ⟨?_, ?_, ?_⟩
    · intro e he
      rw [hfound] at he
      injection he with he'
      subst he'
      have hklt : k - 1 < i - 1 := by omega
      refine ⟨hklt, ?_, ?_⟩
      · rw [← getD_take (l := ks) (n := i - 1) hklt]
        exact heqP
      · have hplus : k - 1 + 1 = k := by omega
        rw [hplus, hsf]
        exact hck
    · intro p hp
      rw [hfound] at hp
      exact SearchResult.noConfusion hp
    · intro hi'
      exfalso
      obtain ⟨j, hjl, _⟩ := hex
      rw [hPlen, hi'] at hjl
      omega
  · push_neg at hex
    have hnexP : ∀ j, j < (ks.take (i - 1)).length →
        cmp ((ks.take (i - 1)).getD j dKP) (ks.getD i dKP) .Last ≠ .eq :=
      hex
    have hnf := binary_search_no_eq (ks.take (i - 1)) (ks.getD i dKP) .Last k
      Hk1P Hk2P hkP hnexP
    refine ⟨?_, ?_, ?_⟩
    · intro e he
      rw [hnf] at he
      exact SearchResult.noConfusion he
    · intro p hp
      rw [hnf] at hp
      injection hp with hp'
      subst hp'
      refine ⟨?_, ?_, ?_, ?_⟩
      · intro j hj
        have := hnexP j (by rw [hPlen]; omega)
        rw [getD_take hj] at this
        exact this
      · intro j hj
        have h1 := Hk1 j hj
        have h2 : cmp (ks.getD j dKP) (ks.getD i dKP) .Last ≠ .eq := by
          have := hnexP j (by rw [hPlen]; omega)
          rw [getD_take (by omega)] at this
          exact this
        cases hcj : cmp (ks.getD j dKP) (ks.getD i dKP) .Last
        · rfl
        · exact absurd hcj h2
        · exact absurd hcj h1
      · intro j h1 h2
        exact Hk2 j h1 h2
      · rw [hsf]
        exact hck
    · intro hi'
      subst hi'
      have hk0 : k = 0 := by omega
      rw [hsf]
      rw [hk0] at hck
      exact hck

theorem claim_C2_witness :
    (sorted sortableVariant [⟨"A", []⟩, ⟨"B", []⟩, ⟨"D", []⟩, ⟨"C", []⟩]).1
      = .orderViolation ⟨["C"]⟩ ⟨["D"]⟩ := by
  have h := claim_C2 sortableVariant
    [⟨"A", []⟩, ⟨"B", []⟩, ⟨"D", []⟩, ⟨"C", []⟩]
    [⟨"A", []⟩, ⟨"B", []⟩, ⟨"D", []⟩, ⟨"C", []⟩]
    [(0, ⟨["A"]⟩), (0, ⟨["B"]⟩), (0, ⟨["D"]⟩), (0, ⟨["C"]⟩)] 3
    rfl (by decide) (by decide)
  have h2 := h.2.2.1 2 (by decide)
  exact h2.2.2.2

end Remain
